import Mathlib

/-!
Shallow embedding of the ECB-guide JSON extractor:
`src/json_parserv3.py` (the single-pass reading-order classifier) and
`src/json_parserv2.py` (the earlier multi-pass classifier).

Strings are modelled as `List Char`; font sizes (Python floats compared
against the thresholds 18.0 / 12.5 / 8.5) are modelled as rationals.
Python regular expressions are compiled, pattern by pattern, to a small
backtracking matcher (`matchAtoms`) over lists of atoms with Python's
preference order (greedy quantifiers try longest first, lazy ones
shortest first, leftmost match wins).
-/

def chars (s : String) : List Char := s.toList

/-- Python's `\s` for `re` on `str` (and `str.isspace`): the Unicode
whitespace code points tested by `Py_UNICODE_ISSPACE`. -/
def isSpaceCh (c : Char) : Bool :=
  let v := c.toNat
  (9 ≤ v && v ≤ 13) || (28 ≤ v && v ≤ 31) || v == 32 || v == 133 || v == 160 ||
  v == 0x1680 || (0x2000 ≤ v && v ≤ 0x200A) || v == 0x2028 || v == 0x2029 ||
  v == 0x202F || v == 0x205F || v == 0x3000

/-- Python's `\d` restricted to ASCII digits (the only digits this
document contains). -/
def isDigitCh (c : Char) : Bool := 48 ≤ c.toNat && c.toNat ≤ 57

/-- The character class `[A-Z]` (ASCII, exactly as in the source regexes). -/
def isUpperCh (c : Char) : Bool := 65 ≤ c.toNat && c.toNat ≤ 90

/-- The class matched by `.` without `re.DOTALL`: any char except newline. -/
def notNlCh (c : Char) : Bool := c != '\n'

/-! ### A tiny backtracking regex engine

Each source pattern is a sequence of atoms: literals, single-character
classes, greedy star/plus of a class, lazy star of a class, and the `$`
anchor (which in Python matches at the end of the string or just before
a trailing newline).  `matchAtoms` returns, for an anchored match at the
start of the input, the list of lengths consumed by each atom on the
backtracking path Python's engine prefers. -/

inductive Atom where
  | lit (cs : List Char)
  | cls (p : Char → Bool)
  | starG (p : Char → Bool)
  | plusG (p : Char → Bool)
  | starL (p : Char → Bool)
  | anchorEnd

/-- Try `f k`, `f (k-1)`, ..., `f (k-steps)`, returning the first hit
(greedy preference: longest first). -/
def tryDownAux (f : Nat → Option (List Nat)) : Nat → Nat → Option (Nat × List Nat)
  | steps, k =>
    match f k with
    | some L => some (k, L)
    | none =>
      match steps with
      | 0 => none
      | steps' + 1 => tryDownAux f steps' (k - 1)

/-- Try `f k`, `f (k+1)`, ..., `f (k+steps)`, returning the first hit
(lazy preference: shortest first). -/
def tryUpAux (f : Nat → Option (List Nat)) : Nat → Nat → Option (Nat × List Nat)
  | steps, k =>
    match f k with
    | some L => some (k, L)
    | none =>
      match steps with
      | 0 => none
      | steps' + 1 => tryUpAux f steps' (k + 1)

def matchAtoms : List Atom → List Char → Option (List Nat)
  | [], _ => some []
  | Atom.lit cs :: rest, s =>
    if s.take cs.length = cs then
      (matchAtoms rest (s.drop cs.length)).map (fun L => cs.length :: L)
    else none
  | Atom.cls p :: rest, s =>
    match s with
    | [] => none
    | c :: s' => if p c then (matchAtoms rest s').map (fun L => 1 :: L) else none
  | Atom.starG p :: rest, s =>
    let m := (s.takeWhile p).length
    (tryDownAux (fun k => matchAtoms rest (s.drop k)) m m).map (fun kL => kL.1 :: kL.2)
  | Atom.plusG p :: rest, s =>
    let m := (s.takeWhile p).length
    if m = 0 then none
    else (tryDownAux (fun k => matchAtoms rest (s.drop k)) (m - 1) m).map (fun kL => kL.1 :: kL.2)
  | Atom.starL p :: rest, s =>
    let m := (s.takeWhile p).length
    (tryUpAux (fun k => matchAtoms rest (s.drop k)) m 0).map (fun kL => kL.1 :: kL.2)
  | Atom.anchorEnd :: rest, s =>
    if s = [] ∨ s = [Char.ofNat 10] then (matchAtoms rest s).map (fun L => 0 :: L)
    else none

/-- Start offset of the `i`-th atom's segment inside a match. -/
def segStart (L : List Nat) (i : Nat) : Nat := (L.take i).sum

/-- The slice of the subject consumed by the `i`-th atom of a match. -/
def seg (s : List Char) (L : List Nat) (i : Nat) : List Char :=
  (s.drop (segStart L i)).take (L.getD i 0)

/-! ### The source patterns

`PARA_START_RE   = ^\s*(\d+)\.\s+`
`SUBSEC_NUMDOT_RE   = ^\s*(\d+)\.(\d+)\s+(.+)$`
`SUBSEC_ALPHADOT_RE = ^\s*([A-Z])\.(\d+)\s+(.+)$`
`SEC_NUM_RE         = ^\s*(\d+)\s+(.+)$`
`SEC_ALPHA_RE       = ^\s*([A-Z])\s+(.+)$`
`HEADER_NUM_RE   = ECB guide to internal models\s+–\s+(.*?)\s+(\d+)\s*$`  (group 1 is the digits)
`HEADER_STRIP_RE = ECB guide to internal models\s+–\s+.*?\s+\d+\s*` -/

def PARA_START_RE : List Atom :=
  [.starG isSpaceCh, .plusG isDigitCh, .lit (chars "."), .plusG isSpaceCh]

def SUBSEC_NUMDOT_RE : List Atom :=
  [.starG isSpaceCh, .plusG isDigitCh, .lit (chars "."), .plusG isDigitCh,
   .plusG isSpaceCh, .plusG notNlCh, .anchorEnd]

def SUBSEC_ALPHADOT_RE : List Atom :=
  [.starG isSpaceCh, .cls isUpperCh, .lit (chars "."), .plusG isDigitCh,
   .plusG isSpaceCh, .plusG notNlCh, .anchorEnd]

def SEC_NUM_RE : List Atom :=
  [.starG isSpaceCh, .plusG isDigitCh, .plusG isSpaceCh, .plusG notNlCh, .anchorEnd]

def SEC_ALPHA_RE : List Atom :=
  [.starG isSpaceCh, .cls isUpperCh, .plusG isSpaceCh, .plusG notNlCh, .anchorEnd]

def ECB_HEADER_LIT : List Char := chars "ECB guide to internal models"

def HEADER_NUM_RE : List Atom :=
  [.lit ECB_HEADER_LIT, .plusG isSpaceCh, .lit (chars "–"), .plusG isSpaceCh,
   .starL notNlCh, .plusG isSpaceCh, .plusG isDigitCh, .starG isSpaceCh, .anchorEnd]

def HEADER_STRIP_RE : List Atom :=
  [.lit ECB_HEADER_LIT, .plusG isSpaceCh, .lit (chars "–"), .plusG isSpaceCh,
   .starL notNlCh, .plusG isSpaceCh, .plusG isDigitCh, .starG isSpaceCh]

/-! ### Text normalizer (`normalize_text` of both source files) -/

/-- `s.replace("­", "")`: delete every soft hyphen. -/
def removeSoftHyphen (s : List Char) : List Char :=
  s.filter (fun c => c != Char.ofNat 0xAD)

/-- `s.replace("-\n", "")`: delete hyphen-newline pairs, left to right. -/
def removeHyphenNl : List Char → List Char
  | [] => []
  | [c] => [c]
  | c :: d :: rest =>
    if c = '-' ∧ d = '\n' then removeHyphenNl rest
    else c :: removeHyphenNl (d :: rest)

/-- `s.replace("\n", " ")`. -/
def replaceNl (s : List Char) : List Char :=
  s.map (fun c => if c = '\n' then ' ' else c)

/-- `HEADER_STRIP_RE.sub(" ", s)`: scan left to right, replacing each
non-overlapping match with a single space.  The pattern begins with a
28-character literal, so every match consumes at least one character and
fuel `s.length` suffices. -/
def subHeaderAux : Nat → List Char → List Char
  | 0, s => s
  | fuel + 1, s =>
    match matchAtoms HEADER_STRIP_RE s with
    | some L => ' ' :: subHeaderAux fuel (s.drop L.sum)
    | none =>
      match s with
      | [] => []
      | c :: s' => c :: subHeaderAux fuel s'

def headerStrip (s : List Char) : List Char := subHeaderAux s.length s

/-- `re.sub(r"\s+", " ", s)`: collapse each maximal whitespace run to a
single space.  The flag records whether the previous character was
whitespace (i.e. whether we are inside a run already). -/
def collapseWsAux : Bool → List Char → List Char
  | _, [] => []
  | prevWs, c :: rest =>
    if isSpaceCh c then
      if prevWs then collapseWsAux true rest else ' ' :: collapseWsAux true rest
    else c :: collapseWsAux false rest

def collapseWs (s : List Char) : List Char := collapseWsAux false s

/-- `str.strip()`: drop leading and trailing whitespace. -/
def dropTrailingWs (s : List Char) : List Char :=
  (s.reverse.dropWhile isSpaceCh).reverse

def stripWs (s : List Char) : List Char :=
  dropTrailingWs (s.dropWhile isSpaceCh)

/-- `normalize_text` (identical in v2 and v3):
soft hyphens out, hyphenated line breaks rejoined, newlines to spaces,
running header stripped, whitespace collapsed, ends trimmed. -/
def normalize_text (s : List Char) : List Char :=
  stripWs (collapseWs (headerStrip (replaceNl (removeHyphenNl (removeSoftHyphen s)))))

/-! ### Data model -/

structure Span where
  text : List Char
  size : ℚ
deriving DecidableEq

/-- One block of the page dictionary: its `type` field (0 = text) and its
lines of spans. -/
structure RawBlock where
  btype : Int
  lines : List (List Span)
deriving DecidableEq

structure Page where
  blocks : List RawBlock
deriving DecidableEq

def emptyPage : Page := ⟨[]⟩

/-- A collected block: enumeration index, normalized text, max span size. -/
structure Block where
  idx : Nat
  text : List Char
  max_size : ℚ
deriving DecidableEq

/-- An output record.  `sect`/`subsect` stand for the source's
`section`/`subsection` keys (`section` is a Lean keyword). -/
structure ParaRecord where
  title : List Char
  sect : List Char
  subsect : List Char
  paragraph_number : List Char
  page : Int
  text : List Char
deriving DecidableEq

/-- Classifier state: heading context, in-flight record, accumulation
buffer and emitted results. -/
structure St where
  title : Option (List Char)
  sect : List Char
  subsect : List Char
  chapter_id : Option (List Char)
  cur_para : Option ParaRecord
  buf : List (List Char)
  results : List ParaRecord
deriving DecidableEq

def initSt : St :=
  { title := none, sect := chars "N/A", subsect := chars "N/A",
    chapter_id := none, cur_para := none, buf := [], results := [] }

/-! ### Thresholds and small helpers -/

def TITLE_MIN_PT : ℚ := 18
def HEADING_MIN_PT : ℚ := mkRat 25 2
def FOOTNOTE_MAX_PT : ℚ := mkRat 17 2

def TABLE_HEADING_STARTS : List (List Char) :=
  [chars "Table ", chars "Relevant regulatory references"]

def looks_like_table_heading (t : List Char) : Bool :=
  TABLE_HEADING_STARTS.any (fun p => p.isPrefixOf t)

/-- Python `x or "N/A"` where `x : str | None`. -/
def orNA : Option (List Char) → List Char
  | none => chars "N/A"
  | some t => if t = [] then chars "N/A" else t

/-- Python `x or "N/A"` where `x : str`. -/
def orElseNA (t : List Char) : List Char := if t = [] then chars "N/A" else t

/-- Python `str.lower()` restricted to ASCII (the only comparison target
in the source is the ASCII literal "contents"). -/
def lowerCh (c : Char) : Char :=
  if 65 ≤ c.toNat ∧ c.toNat ≤ 90 then Char.ofNat (c.toNat + 32) else c

def lowerStr (s : List Char) : List Char := s.map lowerCh

/-- `len(txt.split())`: number of maximal non-whitespace runs. -/
def wordCountAux : Bool → List Char → Nat
  | _, [] => 0
  | inWord, c :: rest =>
    if isSpaceCh c then wordCountAux false rest
    else (if inWord then 0 else 1) + wordCountAux true rest

def wordCount (s : List Char) : Nat := wordCountAux false s

/-- `int()` of a digit string. -/
def digitsToInt (ds : List Char) : Int :=
  Int.ofNat (ds.foldl (fun a c => 10 * a + (c.toNat - 48)) 0)

/-- `" ".join(buf)`. -/
def joinSpace (buf : List (List Char)) : List Char :=
  List.intercalate (chars " ") buf

/-! ### Regex front ends used by the classifier -/

/-- `PARA_START_RE.match(txt)`: on success, group 1 (the paragraph
number) together with `txt[m.end():].strip()` (the seeded rest). -/
def paraStartMatch (s : List Char) : Option (List Char × List Char) :=
  (matchAtoms PARA_START_RE s).map (fun L => (seg s L 1, stripWs (s.drop L.sum)))

/-- `pat.match(txt)` returning group 1 (the chapter id atom at index 1). -/
def reMatchG1 (pat : List Atom) (s : List Char) : Option (List Char) :=
  (matchAtoms pat s).map (fun L => seg s L 1)

/-! ### Page index resolver (`get_printed_page_number`) -/

def rawText (b : RawBlock) : List Char :=
  (b.lines.map (fun ln => (ln.map Span.text).flatten)).flatten

def spanSizes (b : RawBlock) : List ℚ :=
  (b.lines.map (fun ln => ln.map Span.size)).flatten

def maxSize (b : RawBlock) : ℚ :=
  match spanSizes b with
  | [] => 0
  | q :: qs => qs.foldl max q

/-- `HEADER_NUM_RE.search(raw)`: try the pattern at every position, left
to right; on the first match return `int(m.group(1))` (the digits are
atom 6 of the pattern). -/
def headerCapture : List Char → Option Int
  | [] =>
    match matchAtoms HEADER_NUM_RE [] with
    | some L => some (digitsToInt (seg ([] : List Char) L 6))
    | none => none
  | c :: rest =>
    match matchAtoms HEADER_NUM_RE (c :: rest) with
    | some L => some (digitsToInt (seg (c :: rest) L 6))
    | none => headerCapture rest

/-- The loop body of `get_printed_page_number`: first type-0 block whose
raw text matches the running-header pattern. -/
def firstHeaderNum : List RawBlock → Option Int
  | [] => none
  | b :: bs =>
    if b.btype = 0 then
      match headerCapture (rawText b) with
      | some k => some k
      | none => firstHeaderNum bs
    else firstHeaderNum bs

/-- `get_printed_page_number(page)` where `number` is `page.number`
(the 0-based physical index): the first captured header number, else
`page.number + 1`. -/
def get_printed_page_number (pg : Page) (number : Int) : Int :=
  match firstHeaderNum pg.blocks with
  | some k => k
  | none => number + 1

/-! ### Block collector (`collect_blocks`) -/

def collect_blocks (pg : Page) : List Block :=
  pg.blocks.enum.filterMap (fun bib =>
    if bib.2.btype = 0 then
      let txt := normalize_text (rawText bib.2)
      if txt = [] then none
      else some { idx := bib.1, text := txt, max_size := maxSize bib.2 }
    else none)

/-! ### The printed-page → physical-index dictionary -/

/-- Python dict assignment: update in place if the key exists, else
append. -/
def dinsert : List (Int × Nat) → Int → Nat → List (Int × Nat)
  | [], k, v => [(k, v)]
  | (k', v') :: rest, k, v =>
    if k' = k then (k, v) :: rest else (k', v') :: dinsert rest k v

def dlookup : List (Int × Nat) → Int → Option Nat
  | [], _ => none
  | (k', v') :: rest, k => if k' = k then some v' else dlookup rest k

/-- The printed number resolved for physical page `k` of `doc`. -/
def printedOf (doc : List Page) (k : Nat) : Int :=
  get_printed_page_number (doc.getD k emptyPage) (Int.ofNat k)

/-- `printed_to_index[get_printed_page_number(doc.load_page(i))] = i`
for `i` in `range(doc.page_count)`. -/
def printed_to_index (doc : List Page) : List (Int × Nat) :=
  (List.range doc.length).foldl (fun m i => dinsert m (printedOf doc i) i) []

/-- `range(start, end + 1)` over integers. -/
def intRange (lo hi : Int) : List Int :=
  (List.range (hi + 1 - lo).toNat).map (fun k => lo + (k : Int))

/-! ### The v3 single-pass classifier (`src/json_parserv3.py`) -/

namespace V3

/-- The four heading sub-rules of v3, in source order, returning
`m.group(1)` (the chapter id) of the first that fires.  The numeric and
alphabetic *section* rules additionally require `len(txt.split()) > 2`,
falling through to the next check otherwise. -/
def secAlphaGuard (txt : List Char) : Option (List Char) :=
  match reMatchG1 SEC_ALPHA_RE txt with
  | some g => if 2 < wordCount txt then some g else none
  | none => none

def headingCid (txt : List Char) : Option (List Char) :=
  match reMatchG1 SUBSEC_NUMDOT_RE txt with
  | some g => some g
  | none =>
    match reMatchG1 SUBSEC_ALPHADOT_RE txt with
    | some g => some g
    | none =>
      match reMatchG1 SEC_NUM_RE txt with
      | some g => if 2 < wordCount txt then some g else secAlphaGuard txt
      | none => secAlphaGuard txt

/-- `flush()`: join the buffer, re-normalize; emit only if non-empty;
always clear the in-flight record and buffer. -/
def flushSt (st : St) : St :=
  match st.cur_para with
  | none => { st with cur_para := none, buf := [] }
  | some p =>
    let t := normalize_text (joinSpace st.buf)
    if t = [] then { st with cur_para := none, buf := [] }
    else { st with results := st.results ++ [{ p with text := t }],
                   cur_para := none, buf := [] }

/-- The body of the single reading-order pass, for one block. -/
def processBlock (printed : Int) (st : St) (b : Block) : St :=
  let txt := b.text
  let sz := b.max_size
  if TITLE_MIN_PT ≤ sz ∧ txt.length < 200 ∧ lowerStr txt ≠ chars "contents" then
    { st with title := some txt, sect := chars "N/A", subsect := chars "N/A",
              chapter_id := none }
  else
    match (if HEADING_MIN_PT ≤ sz then headingCid txt else none) with
    | some cid =>
      { st with chapter_id := some cid, sect := orNA st.title, subsect := txt }
    | none =>
      if sz < FOOTNOTE_MAX_PT ∨ looks_like_table_heading txt = true then st
      else
        match paraStartMatch txt with
        | some nr =>
          let st' := flushSt st
          { st' with
            cur_para := some
              { title := orNA st.title, sect := orElseNA st.sect,
                subsect := orElseNA st.subsect, paragraph_number := nr.1,
                page := printed, text := [] },
            buf := if nr.2 = [] then [] else [nr.2] }
        | none =>
          match st.cur_para with
          | some _ => { st with buf := st.buf ++ [txt] }
          | none => st

/-- `extract_json` of v3: build the printed-page map, walk the requested
printed range in order, process each present page's blocks in a single
reading-order pass, and flush at the end. -/
def extract_json (doc : List Page) (start_printed_page end_printed_page : Int) :
    List ParaRecord :=
  let pmap := printed_to_index doc
  let final := (intRange start_printed_page end_printed_page).foldl
    (fun st printed =>
      match dlookup pmap printed with
      | none => st
      | some idx => (collect_blocks (doc.getD idx emptyPage)).foldl (processBlock printed) st)
    initSt
  (flushSt final).results

end V3

/-! ### The v2 multi-pass classifier (`src/json_parserv2.py`) -/

namespace V2

/-- Pass A: detect big chapter titles. -/
def passAStep (st : St) (b : Block) : St :=
  if TITLE_MIN_PT ≤ b.max_size ∧ b.text.length < 200 ∧ lowerStr b.text ≠ chars "contents" then
    { st with title := some b.text, sect := chars "N/A", subsect := chars "N/A",
              chapter_id := none }
  else st

/-- v2's section label: `f"{cid} {title}"` when the title is truthy. -/
def v2Label (cid : List Char) (title : Option (List Char)) (fallback : List Char) :
    List Char :=
  match title with
  | some t => if t = [] then fallback else cid ++ chars " " ++ t
  | none => fallback

/-- Pass B: detect section/subsection headings.  Unlike v3, there is no
word-count guard on the plain section rules, and the section label
includes the chapter id. -/
def passBStep (st : St) (b : Block) : St :=
  if b.max_size < HEADING_MIN_PT then st
  else
    let txt := b.text
    match reMatchG1 SUBSEC_NUMDOT_RE txt with
    | some g =>
      { st with chapter_id := some g, sect := v2Label g st.title (orElseNA g),
                subsect := txt }
    | none =>
      match reMatchG1 SUBSEC_ALPHADOT_RE txt with
      | some g =>
        { st with chapter_id := some g, sect := v2Label g st.title g, subsect := txt }
      | none =>
        match reMatchG1 SEC_NUM_RE txt with
        | some g =>
          { st with chapter_id := some g, sect := v2Label g st.title g, subsect := txt }
        | none =>
          match reMatchG1 SEC_ALPHA_RE txt with
          | some g =>
            { st with chapter_id := some g, sect := v2Label g st.title g, subsect := txt }
          | none => st

def flushSt (st : St) : St :=
  match st.cur_para with
  | none => { st with cur_para := none, buf := [] }
  | some p =>
    let t := normalize_text (joinSpace st.buf)
    if t = [] then { st with cur_para := none, buf := [] }
    else { st with results := st.results ++ [{ p with text := t }],
                   cur_para := none, buf := [] }

/-- Is the text shaped like any of the four heading patterns (no word
count guard — this is v2's pass-C skip test)? -/
def headingShaped (txt : List Char) : Bool :=
  (matchAtoms SUBSEC_NUMDOT_RE txt).isSome || (matchAtoms SUBSEC_ALPHADOT_RE txt).isSome ||
  (matchAtoms SEC_NUM_RE txt).isSome || (matchAtoms SEC_ALPHA_RE txt).isSome

/-- Pass C: numbered paragraphs and continuations. -/
def passCStep (printed : Int) (st : St) (b : Block) : St :=
  if b.max_size < FOOTNOTE_MAX_PT then st
  else
    let txt := b.text
    if (HEADING_MIN_PT ≤ b.max_size ∧ headingShaped txt = true) ∨
        looks_like_table_heading txt = true then st
    else
      match paraStartMatch txt with
      | some nr =>
        let st' := flushSt st
        { st' with
          cur_para := some
            { title := orNA st.title, sect := orElseNA st.sect,
              subsect := orElseNA st.subsect, paragraph_number := nr.1,
              page := printed, text := [] },
          buf := if nr.2 = [] then [] else [nr.2] }
      | none =>
        match st.cur_para with
        | some _ => { st with buf := st.buf ++ [txt] }
        | none => st

/-- `extract_json` of v2: per page, three separate passes over the same
blocks (titles, then headings, then paragraphs). -/
def extract_json (doc : List Page) (start_printed_page end_printed_page : Int) :
    List ParaRecord :=
  let pmap := printed_to_index doc
  let final := (intRange start_printed_page end_printed_page).foldl
    (fun st printed =>
      match dlookup pmap printed with
      | none => st
      | some idx =>
        let blocks := collect_blocks (doc.getD idx emptyPage)
        let stA := blocks.foldl passAStep st
        let stB := blocks.foldl passBStep stA
        blocks.foldl (passCStep printed) stB)
    initSt
  (flushSt final).results

end V2

/-! ### Predicates used by the normalizer invariants -/

/-- Every whitespace character of `t` is the plain space `' '`. -/
def spacesOk (t : List Char) : Prop := ∀ c ∈ t, isSpaceCh c = true → c = ' '

/-- No two adjacent whitespace characters. -/
def noWsPair (t : List Char) : Prop :=
  List.Chain' (fun a b => ¬(isSpaceCh a = true ∧ isSpaceCh b = true)) t

/-- The first character, if any, is not whitespace. -/
def headNotWs (t : List Char) : Prop :=
  ∀ c, t.head? = some c → isSpaceCh c = false

/-- The last character, if any, is not whitespace. -/
def lastNotWs (t : List Char) : Prop :=
  ∀ c, t.getLast? = some c → isSpaceCh c = false

/-- The printed-page map built from the first `n` physical pages. -/
def mapUpTo (doc : List Page) (n : Nat) : List (Int × Nat) :=
  (List.range n).foldl (fun m i => dinsert m (printedOf doc i) i) []

/-! ### Concrete fixtures for the counterexamples and witnesses -/

/-- A synthetic page: one type-0 block per entry, one span each. -/
def mkPage (bs : List (String × ℚ)) : Page :=
  ⟨bs.map (fun p => { btype := 0, lines := [[{ text := chars p.1, size := p.2 }]] })⟩

/-- C1 fixture: a numbered paragraph, then a subsection heading, then a
plain continuation block, all on one page. -/
def docC1 : List Page :=
  [mkPage [("1. Intro", 11), ("1.2 Scope", 14), ("tail text", 11)]]

def blkC1a : Block := { idx := 0, text := chars "1. Intro", max_size := 11 }

def blkC1b : Block := { idx := 1, text := chars "1.2 Scope", max_size := 14 }

/-- C2 fixture: the synthetic two-page document of the spec's end-to-end
scenario. -/
def docC2 : List Page :=
  [mkPage [("Overarching principles", 20), ("1.2 Scope", 14),
           ("1. This guide applies to...", 11)],
   mkPage [("to all significant institutions.", 11), ("2. Further, ...", 11)]]

def recC2a : ParaRecord :=
  { title := chars "Overarching principles", sect := chars "Overarching principles",
    subsect := chars "1.2 Scope", paragraph_number := chars "1", page := 1,
    text := chars "This guide applies to... to all significant institutions." }

def recC2b : ParaRecord :=
  { recC2a with paragraph_number := chars "2", page := 2, text := chars "Further, ..." }

/-- C5 fixture: a numbered paragraph above a subsection heading on the
same page. -/
def docC5 : List Page := [mkPage [("1. First para", 11), ("1.2 New Scope", 14)]]

/-- C9 fixture: physical page 0 resolves to printed 1 by fallback, and
physical page 1 also resolves to printed 1 through its running header. -/
def docC9 : List Page :=
  [mkPage [("first page body", 11)],
   mkPage [("ECB guide to internal models – x 1", 9), ("9. Nine text", 11)]]

def pgJunk : Page := mkPage [("junk replacement", 11)]

/-- C8 fixtures: a page with no header match, and one whose second block
carries the running header. -/
def pgNoHdr : Page := mkPage [("just some body text", 11)]

def blkPlain : RawBlock := { btype := 0, lines := [[{ text := chars "plain", size := 11 }]] }

def blkHdr : RawBlock :=
  { btype := 0,
    lines := [[{ text := chars "ECB guide to internal models – Annex 123", size := 9 }]] }

def pgHdr : Page := ⟨[blkPlain, blkHdr]⟩

def blkTitle : Block := { idx := 0, text := chars "Big Title Here", max_size := 20 }

def blkFoot : Block := { idx := 0, text := chars "tiny footnote", max_size := 7 }

def blkNumdot : Block := { idx := 0, text := chars "1.2 Scope", max_size := 11 }

def stWithPara : St :=
  { initSt with
    cur_para := some
      { title := chars "N/A", sect := chars "N/A", subsect := chars "N/A",
        paragraph_number := chars "1", page := 1, text := [] },
    buf := [chars "Intro"] }

/-! ## Theorems -/

/-! ### C2 — end-to-end scenario -/

/-- C2: on the synthetic two-page input (title "Overarching principles"
at size 20, subsection "1.2 Scope" at size 14, paragraph "1. This guide
applies to..." at size 11 on page 1; continuation "to all significant
institutions." and paragraph "2. Further, ..." at size 11 on page 2) the
v3 extractor emits exactly two records: the first with that title,
subsection "1.2 Scope", paragraph number "1" and the continuation joined
across the page boundary; the second with paragraph number "2", the same
heading context, and its own page number. -/
theorem c2_end_to_end : V3.extract_json docC2 1 2 = [recC2a, recC2b] := by decide

/-! ### C3 — hyphenated line break -/

/-- C3 counterexample: `normalize_text "model-\nbased"` is not
"model-based" — the hyphen is not retained. -/
theorem c3_counterexample :
    normalize_text (chars "model-\nbased") ≠ chars "model-based" := by decide

/-- C3 amended: `normalize_text "model-\nbased"` yields "modelbased":
the hyphen-newline pair is deleted outright (`.replace("-\n", "")`), so
the split word rejoins with no space and no hyphen. -/
theorem c3_amended :
    normalize_text (chars "model-\nbased") = chars "modelbased" := by decide

/-! ### C5 — v2 and v3 are not equivalent -/

/-- C5: the multi-pass v2 classifier and the single-pass v3 classifier
produce different output on `docC5`: v2's heading pass sees the
subsection heading printed *below* the paragraph before v2's paragraph
pass opens the paragraph, so v2 stamps the record with section "1" and
subsection "1.2 New Scope" while v3, reading in order, stamps "N/A". -/
theorem c5_multipass_differs :
    V2.extract_json docC5 1 1 ≠ V3.extract_json docC5 1 1 := by decide

/-! ### C6 — chapter title rule -/

/-- C6: any block with `max_size ≥ TITLE_MIN_PT`, text shorter than 200
characters and text not (case-insensitively) "contents" sets the title,
resets section/subsection to "N/A" and chapter id to unset, and leaves
the in-flight paragraph, buffer and results untouched (visible in the
record update, which keeps `cur_para`, `buf` and `results`). -/
theorem c6_title_rule (printed : Int) (st : St) (b : Block)
    (h1 : TITLE_MIN_PT ≤ b.max_size) (h2 : b.text.length < 200)
    (h3 : lowerStr b.text ≠ chars "contents") :
    V3.processBlock printed st b =
      { st with title := some b.text, sect := chars "N/A",
                subsect := chars "N/A", chapter_id := none } := by
  simp only [V3.processBlock]
  rw [if_pos ⟨h1, h2, h3⟩]

theorem c6_title_rule_witness :
    V3.processBlock 1 stWithPara blkTitle =
      { stWithPara with title := some (chars "Big Title Here"), sect := chars "N/A",
                        subsect := chars "N/A", chapter_id := none } :=
  c6_title_rule 1 stWithPara blkTitle (by decide) (by decide) (by decide)

/-! ### C7 — footnote-sized blocks are complete no-ops -/

/-- C7: a block with `max_size < FOOTNOTE_MAX_PT` leaves the classifier
state completely unchanged: it contributes no characters to any record,
does not alter the heading context, and does not terminate an in-flight
paragraph. -/
theorem c7_footnote_noop (printed : Int) (st : St) (b : Block)
    (h : b.max_size < FOOTNOTE_MAX_PT) :
    V3.processBlock printed st b = st := by
  have hT : ¬(TITLE_MIN_PT ≤ b.max_size ∧ b.text.length < 200 ∧
      lowerStr b.text ≠ chars "contents") := by
    rintro ⟨h1, -, -⟩
    have : TITLE_MIN_PT < FOOTNOTE_MAX_PT := lt_of_le_of_lt h1 h
    norm_num [TITLE_MIN_PT, FOOTNOTE_MAX_PT] at this
  have hH : ¬ HEADING_MIN_PT ≤ b.max_size := by
    intro h1
    have : HEADING_MIN_PT < FOOTNOTE_MAX_PT := lt_of_le_of_lt h1 h
    norm_num [HEADING_MIN_PT, FOOTNOTE_MAX_PT] at this
  simp only [V3.processBlock, if_neg hT, if_neg hH, if_pos (Or.inl h)]

theorem c7_footnote_noop_witness :
    V3.processBlock 1 stWithPara blkFoot = stWithPara :=
  c7_footnote_noop 1 stWithPara blkFoot (by decide)

/-! ### C1 — headings do NOT flush the in-flight paragraph -/

/-- C1 counterexample: after processing "1. Intro" (which opens a
paragraph) and then the subsection heading "1.2 Scope" (size 14, sub-rule
2a), the paragraph is still in flight — the claimed flush-on-heading
never happens in the code, so the continuation block that follows is
appended to the paragraph opened before the heading. -/
theorem c1_counterexample :
    (List.foldl (V3.processBlock 1) initSt [blkC1a, blkC1b]).cur_para ≠ none := by
  decide

/-- C1 amended: when a section/subsection sub-rule fires (block of
heading size on which `headingCid` succeeds, title rule not firing),
the classifier only rewrites the heading context; it does not flush: the
in-flight paragraph, its buffer, and the emitted results are all left
unchanged, so continuation blocks after the heading still extend the
paragraph opened before it. -/
theorem c1_heading_no_flush (printed : Int) (st : St) (b : Block)
    (hT : ¬(TITLE_MIN_PT ≤ b.max_size ∧ b.text.length < 200 ∧
        lowerStr b.text ≠ chars "contents"))
    (hH : HEADING_MIN_PT ≤ b.max_size)
    (hM : (V3.headingCid b.text).isSome = true) :
    (V3.processBlock printed st b).cur_para = st.cur_para ∧
    (V3.processBlock printed st b).buf = st.buf ∧
    (V3.processBlock printed st b).results = st.results := by
  obtain ⟨cid, hcid⟩ := Option.isSome_iff_exists.mp hM
  simp only [V3.processBlock, if_neg hT, if_pos hH, hcid]
  exact ⟨trivial, trivial, trivial⟩

theorem c1_heading_no_flush_witness :
    (V3.processBlock 1 stWithPara blkC1b).cur_para = stWithPara.cur_para ∧
    (V3.processBlock 1 stWithPara blkC1b).buf = stWithPara.buf ∧
    (V3.processBlock 1 stWithPara blkC1b).results = stWithPara.results :=
  c1_heading_no_flush 1 stWithPara blkC1b (by decide) (by decide) (by decide)

/-! ### C8 — the page-index resolver is total -/

theorem firstHeaderNum_eq_none :
    ∀ (bs : List RawBlock),
      (∀ b ∈ bs, b.btype = 0 → headerCapture (rawText b) = none) →
      firstHeaderNum bs = none := by
  intro bs
  induction bs with
  | nil => intro _; rfl
  | cons b bs ih =>
    intro h
    have hrest := fun b' (hm : b' ∈ bs) => h b' (List.mem_cons_of_mem _ hm)
    by_cases hb : b.btype = 0
    · have hc := h b (List.mem_cons_self _ _) hb
      simp only [firstHeaderNum, if_pos hb, hc]
      exact ih hrest
    · simp only [firstHeaderNum, if_neg hb]
      exact ih hrest

theorem firstHeaderNum_append :
    ∀ (bs1 : List RawBlock) (b : RawBlock) (bs2 : List RawBlock) (k : Int),
      (∀ b' ∈ bs1, b'.btype = 0 → headerCapture (rawText b') = none) →
      b.btype = 0 → headerCapture (rawText b) = some k →
      firstHeaderNum (bs1 ++ b :: bs2) = some k := by
  intro bs1
  induction bs1 with
  | nil =>
    intro b bs2 k _ hb hc
    simp only [List.nil_append, firstHeaderNum, if_pos hb, hc]
  | cons b0 bs1 ih =>
    intro b bs2 k h hb hc
    have hrest := fun b' (hm : b' ∈ bs1) => h b' (List.mem_cons_of_mem _ hm)
    by_cases h0 : b0.btype = 0
    · have hc0 := h b0 (List.mem_cons_self _ _) h0
      simp only [List.cons_append, firstHeaderNum, if_pos h0, hc0]
      exact ih b bs2 k hrest hb hc
    · simp only [List.cons_append, firstHeaderNum, if_neg h0]
      exact ih b bs2 k hrest hb hc

/-- C8: the page-index resolver is total and never fails.  If no type-0
block of the page matches the running-header pattern it returns
`number + 1` (the physical index plus one); if the page's blocks split
as `bs1 ++ b :: bs2` where `b` is the first type-0 block whose raw text
matches (capturing `k`), it returns exactly `k`. -/
theorem c8_page_resolver_total (pg : Page) (n : Int) :
    ((∀ b ∈ pg.blocks, b.btype = 0 → headerCapture (rawText b) = none) →
        get_printed_page_number pg n = n + 1) ∧
    (∀ (bs1 : List RawBlock) (b : RawBlock) (bs2 : List RawBlock) (k : Int),
        pg.blocks = bs1 ++ b :: bs2 →
        (∀ b' ∈ bs1, b'.btype = 0 → headerCapture (rawText b') = none) →
        b.btype = 0 → headerCapture (rawText b) = some k →
        get_printed_page_number pg n = k) := by
  constructor
  · intro h
    simp only [get_printed_page_number, firstHeaderNum_eq_none pg.blocks h]
  · intro bs1 b bs2 k hsplit h1 hb hc
    simp only [get_printed_page_number, hsplit,
      firstHeaderNum_append bs1 b bs2 k h1 hb hc]

theorem c8_page_resolver_total_witness :
    get_printed_page_number pgNoHdr 7 = 8 ∧ get_printed_page_number pgHdr 3 = 123 :=
  ⟨(c8_page_resolver_total pgNoHdr 7).1 (by decide),
   (c8_page_resolver_total pgHdr 3).2 [blkPlain] blkHdr [] 123 rfl (by decide) rfl
     (by decide)⟩

/-! ### C9 — printed-number collisions: the last physical page wins -/

theorem dlookup_dinsert_self :
    ∀ (m : List (Int × Nat)) (k : Int) (v : Nat), dlookup (dinsert m k v) k = some v := by
  intro m
  induction m with
  | nil => intro k v; simp [dinsert, dlookup]
  | cons kv m ih =>
    intro k v
    obtain ⟨k', v'⟩ := kv
    by_cases h : k' = k
    · simp [dinsert, dlookup, h]
    · simp only [dinsert, if_neg h, dlookup]
      exact ih k v

theorem dlookup_dinsert_ne :
    ∀ (m : List (Int × Nat)) (k q : Int) (v : Nat), q ≠ k →
      dlookup (dinsert m k v) q = dlookup m q := by
  intro m
  induction m with
  | nil =>
    intro k q v h
    simp only [dinsert, dlookup]
    rw [if_neg (fun e => h e.symm)]
  | cons kv m ih =>
    intro k q v h
    obtain ⟨k', v'⟩ := kv
    by_cases hk : k' = k
    · subst hk
      simp only [dinsert, if_pos rfl, dlookup]
      rw [if_neg (fun e => h e.symm), if_neg (fun e => h e.symm)]
    · simp only [dinsert, if_neg hk, dlookup]
      by_cases hq : k' = q
      · rw [if_pos hq, if_pos hq]
      · rw [if_neg hq, if_neg hq]
        exact ih k q v h

theorem mapUpTo_succ (doc : List Page) (n : Nat) :
    mapUpTo doc (n + 1) = dinsert (mapUpTo doc n) (printedOf doc n) n := by
  simp [mapUpTo, List.range_succ]

theorem dlookup_mapUpTo (doc : List Page) :
    ∀ (n : Nat) (q : Int) (m : Nat), dlookup (mapUpTo doc n) q = some m →
      printedOf doc m = q ∧ m < n ∧ ∀ t, m < t → t < n → printedOf doc t ≠ q := by
  intro n
  induction n with
  | zero => intro q m h; simp [mapUpTo, dlookup] at h
  | succ n ih =>
    intro q m h
    rw [mapUpTo_succ] at h
    by_cases hq : q = printedOf doc n
    · subst hq
      rw [dlookup_dinsert_self] at h
      obtain rfl : n = m := by injection h
      refine ⟨rfl, Nat.lt_succ_self n, ?_⟩
      intro t h1 h2
      omega
    · rw [dlookup_dinsert_ne _ _ _ _ hq] at h
      obtain ⟨h1, h2, h3⟩ := ih q m h
      refine ⟨h1, Nat.lt_succ_of_lt h2, ?_⟩
      intro t ht1 ht2 hcontra
      rcases Nat.lt_succ_iff_lt_or_eq.mp ht2 with h' | rfl
      · exact h3 t ht1 h' hcontra
      · exact hq hcontra.symm

theorem dlookup_printed_to_index (doc : List Page) (q : Int) (m : Nat)
    (h : dlookup (printed_to_index doc) q = some m) :
    printedOf doc m = q ∧ m < doc.length ∧
      ∀ t, m < t → t < doc.length → printedOf doc t ≠ q :=
  dlookup_mapUpTo doc doc.length q m h

theorem getD_set_self {α : Type} :
    ∀ (l : List α) (i : Nat) (a d : α), i < l.length → (l.set i a).getD i d = a
  | [], _, _, _, h => absurd h (by simp)
  | _ :: _, 0, _, _, _ => rfl
  | _ :: xs, i + 1, a, d, h => getD_set_self xs i a d (by simpa using h)

theorem getD_set_ne {α : Type} :
    ∀ (l : List α) (i j : Nat) (a d : α), i ≠ j → (l.set i a).getD j d = l.getD j d
  | [], _, _, _, _, _ => rfl
  | _ :: _, 0, 0, _, _, h => absurd rfl h
  | _ :: _, 0, _ + 1, _, _, _ => rfl
  | _ :: _, _ + 1, 0, _, _, _ => rfl
  | _ :: xs, i + 1, j + 1, a, d, h => getD_set_ne xs i j a d (fun e => h (by rw [e]))

theorem foldl_ext {α β : Type} (f g : α → β → α) :
    ∀ (l : List β) (a : α), (∀ acc, ∀ x ∈ l, f acc x = g acc x) →
      l.foldl f a = l.foldl g a
  | [], _, _ => rfl
  | x :: l, a, h => by
    rw [List.foldl_cons, List.foldl_cons, h a x (List.mem_cons_self x l)]
    exact foldl_ext f g l (g a x) (fun acc y hy => h acc y (List.mem_cons_of_mem x hy))

/-- C9: when two physical pages `i < j` resolve to the same printed
number, the later insertion wins: the map never sends that printed
number to `i`, and the whole v3 extraction is insensitive to the content
of page `i` (replacing it by any page resolving to the same printed
number leaves the output unchanged — its blocks are never processed). -/
theorem c9_dict_overwrite (doc : List Page) (i j : Nat) (pg' : Page) (s e : Int)
    (hij : i < j) (hj : j < doc.length)
    (hp : printedOf doc j = printedOf doc i)
    (hp' : get_printed_page_number pg' (Int.ofNat i) = printedOf doc i) :
    dlookup (printed_to_index doc) (printedOf doc i) ≠ some i ∧
    V3.extract_json (doc.set i pg') s e = V3.extract_json doc s e := by
  have hi : i < doc.length := lt_trans hij hj
  have havoid : ∀ (q : Int) (m : Nat), dlookup (printed_to_index doc) q = some m →
      m ≠ i := by
    intro q m h hmi
    subst hmi
    obtain ⟨h1, -, h3⟩ := dlookup_printed_to_index doc q m h
    exact h3 j hij hj (hp.trans h1)
  have hpt : ∀ k : Nat, printedOf (doc.set i pg') k = printedOf doc k := by
    intro k
    by_cases hk : i = k
    · subst hk
      simp only [printedOf, getD_set_self doc i pg' emptyPage hi]
      exact hp'
    · simp only [printedOf, getD_set_ne doc i k pg' emptyPage hk]
  have hmap : printed_to_index (doc.set i pg') = printed_to_index doc := by
    simp only [printed_to_index, List.length_set]
    exact foldl_ext _ _ (List.range doc.length) [] (fun acc x _ => by rw [hpt x])
  refine ⟨fun h => havoid _ i h rfl, ?_⟩
  simp only [V3.extract_json, hmap]
  have hfold : ∀ (l : List Int) (st : St),
      l.foldl (fun st printed =>
        match dlookup (printed_to_index doc) printed with
        | none => st
        | some idx =>
          (collect_blocks ((doc.set i pg').getD idx emptyPage)).foldl
            (V3.processBlock printed) st) st =
      l.foldl (fun st printed =>
        match dlookup (printed_to_index doc) printed with
        | none => st
        | some idx =>
          (collect_blocks (doc.getD idx emptyPage)).foldl (V3.processBlock printed) st)
        st := by
    intro l st
    apply foldl_ext
    intro acc x _
    cases hdl : dlookup (printed_to_index doc) x with
    | none => rfl
    | some idx =>
      have hne : idx ≠ i := havoid x idx hdl
      have hgd := getD_set_ne doc i idx pg' emptyPage (fun e => hne e.symm)
      simp only [hgd]
  rw [hfold]

theorem c9_dict_overwrite_witness :
    dlookup (printed_to_index docC9) (printedOf docC9 0) ≠ some 0 ∧
    V3.extract_json (docC9.set 0 pgJunk) 1 2 = V3.extract_json docC9 1 2 :=
  c9_dict_overwrite docC9 0 1 pgJunk 1 2 (by decide) (by decide) (by decide) (by decide)

/-! ### C10 — "1.2 Scope"-shaped text below heading size -/

theorem tryDownAux_sound {f : Nat → Option (List Nat)} (steps : Nat) :
    ∀ (k j : Nat) (L : List Nat),
      tryDownAux f steps k = some (j, L) → f j = some L ∧ k - steps ≤ j ∧ j ≤ k := by
  induction steps with
  | zero =>
    intro k j L h
    simp only [tryDownAux] at h
    cases hf : f k with
    | some L' =>
      simp only [hf] at h
      injection h with h2
      injection h2 with hk hL
      subst hk
      subst hL
      exact ⟨hf, Nat.sub_le _ _, Nat.le_refl _⟩
    | none =>
      simp only [hf] at h
      exact Option.noConfusion h
  | succ steps' ih =>
    intro k j L h
    simp only [tryDownAux] at h
    cases hf : f k with
    | some L' =>
      simp only [hf] at h
      injection h with h2
      injection h2 with hk hL
      subst hk
      subst hL
      exact ⟨hf, Nat.sub_le _ _, Nat.le_refl _⟩
    | none =>
      simp only [hf] at h
      obtain ⟨h1, h2, h3⟩ := ih (k - 1) j L h
      exact ⟨h1, by omega, by omega⟩

theorem matchAtoms_starG_inv {p : Char → Bool} {rest : List Atom} {s : List Char}
    {l : List Nat} (h : matchAtoms (Atom.starG p :: rest) s = some l) :
    ∃ k L, l = k :: L ∧ k ≤ (s.takeWhile p).length ∧
      matchAtoms rest (s.drop k) = some L := by
  simp only [matchAtoms] at h
  cases htd : tryDownAux (fun k => matchAtoms rest (s.drop k)) (s.takeWhile p).length
      (s.takeWhile p).length with
  | none => rw [htd] at h; exact Option.noConfusion h
  | some kL =>
    rw [htd] at h
    obtain ⟨k, L⟩ := kL
    obtain ⟨h1, -, h3⟩ := tryDownAux_sound _ _ _ _ htd
    exact ⟨k, L, by simpa using h.symm, h3, h1⟩

theorem matchAtoms_plusG_inv {p : Char → Bool} {rest : List Atom} {s : List Char}
    {l : List Nat} (h : matchAtoms (Atom.plusG p :: rest) s = some l) :
    ∃ k L, l = k :: L ∧ 1 ≤ k ∧ k ≤ (s.takeWhile p).length ∧
      matchAtoms rest (s.drop k) = some L := by
  simp only [matchAtoms] at h
  by_cases hm : (s.takeWhile p).length = 0
  · rw [if_pos hm] at h; exact Option.noConfusion h
  · rw [if_neg hm] at h
    cases htd : tryDownAux (fun k => matchAtoms rest (s.drop k))
        ((s.takeWhile p).length - 1) (s.takeWhile p).length with
    | none => rw [htd] at h; exact Option.noConfusion h
    | some kL =>
      rw [htd] at h
      obtain ⟨k, L⟩ := kL
      obtain ⟨h1, h2, h3⟩ := tryDownAux_sound _ _ _ _ htd
      exact ⟨k, L, by simpa using h.symm, by omega, h3, h1⟩

theorem matchAtoms_lit_inv {cs : List Char} {rest : List Atom} {s : List Char}
    {l : List Nat} (h : matchAtoms (Atom.lit cs :: rest) s = some l) :
    s.take cs.length = cs ∧
      ∃ L, l = cs.length :: L ∧ matchAtoms rest (s.drop cs.length) = some L := by
  simp only [matchAtoms] at h
  by_cases hp : s.take cs.length = cs
  · rw [if_pos hp] at h
    cases hmm : matchAtoms rest (s.drop cs.length) with
    | none => rw [hmm] at h; exact Option.noConfusion h
    | some L =>
      rw [hmm] at h
      simp only [Option.map_some', Option.some.injEq] at h
      exact ⟨hp, L, h.symm, rfl⟩
  · rw [if_neg hp] at h; exact Option.noConfusion h

theorem all_take_of_le_takeWhile {p : Char → Bool} :
    ∀ (s : List Char) (k : Nat), k ≤ (s.takeWhile p).length → (s.take k).all p = true
  | _, 0, _ => rfl
  | [], _ + 1, h => by simp at h
  | c :: s', k + 1, h => by
    by_cases hc : p c
    · simp only [List.takeWhile_cons, hc, if_true, List.length_cons,
        Nat.add_le_add_iff_right] at h
      simp only [List.take_succ_cons, List.all_cons, hc, Bool.true_and]
      exact all_take_of_le_takeWhile s' k h
    · simp [List.takeWhile_cons, hc] at h

theorem exists_cons_of_takeWhile_pos {p : Char → Bool} {u : List Char}
    (h : 1 ≤ (u.takeWhile p).length) : ∃ x u', u = x :: u' ∧ p x = true := by
  cases u with
  | nil => simp at h
  | cons x u' =>
    by_cases hx : p x
    · exact ⟨x, u', rfl, hx⟩
    · simp [List.takeWhile_cons, hx] at h

theorem not_space_of_digit {c : Char} (h : isDigitCh c = true) : isSpaceCh c = false := by
  have hd : 48 ≤ c.toNat ∧ c.toNat ≤ 57 := by simpa [isDigitCh] using h
  by_contra hs
  have hs' : isSpaceCh c = true := by
    cases hh : isSpaceCh c
    · exact absurd hh hs
    · rfl
  simp only [isSpaceCh, Bool.or_eq_true, Bool.and_eq_true, decide_eq_true_eq,
    beq_iff_eq] at hs'
  omega

/-- The paragraph-start pattern `^\s*(\d+)\.\s+` cannot match a text of
the shape `ws* digits "." digit …` (e.g. "1.2 Scope"): the pattern
requires whitespace directly after the period, but a digit follows. -/
theorem matchAtoms_paraStart_none (w ds r : List Char) (c : Char)
    (hw : w.all isSpaceCh = true) (hds : ds ≠ []) (hdsd : ds.all isDigitCh = true)
    (hc : isDigitCh c = true) :
    matchAtoms PARA_START_RE (w ++ (ds ++ '.' :: c :: r)) = none := by
  cases hm : matchAtoms PARA_START_RE (w ++ (ds ++ '.' :: c :: r)) with
  | none => rfl
  | some l =>
    exfalso
    rw [show PARA_START_RE = [Atom.starG isSpaceCh, Atom.plusG isDigitCh,
        Atom.lit (chars "."), Atom.plusG isSpaceCh] from rfl] at hm
    obtain ⟨k0, L0, -, hk0le, hm0⟩ := matchAtoms_starG_inv hm
    obtain ⟨k1, L1, -, hk1ge, hk1le, hm1⟩ := matchAtoms_plusG_inv hm0
    obtain ⟨hlit, L2, -, hm2⟩ := matchAtoms_lit_inv hm1
    obtain ⟨k3, L3, -, hk3ge, hk3le, -⟩ := matchAtoms_plusG_inv hm2
    set t := w ++ (ds ++ '.' :: c :: r) with ht
    -- step A: the leading whitespace segment is exactly `w`
    have hA1 : k0 ≤ w.length := by
      by_contra hgt
      push_neg at hgt
      have hall : (t.take k0).all isSpaceCh = true := all_take_of_le_takeWhile t k0 hk0le
      obtain ⟨d, ds', rfl⟩ := List.exists_cons_of_ne_nil hds
      have hsplit : t.take k0 = w ++ ((d :: ds') ++ '.' :: c :: r).take (k0 - w.length) := by
        rw [ht, List.take_append_eq_append_take, List.take_of_length_le (le_of_lt hgt)]
      rw [hsplit, List.all_append, Bool.and_eq_true] at hall
      have h2 := hall.2
      cases hk : k0 - w.length with
      | zero => omega
      | succ mm =>
        rw [hk, List.cons_append, List.take_succ_cons, List.all_cons,
          Bool.and_eq_true] at h2
        have hd : isSpaceCh d = true := h2.1
        have hdd : isDigitCh d = true :=
          List.all_eq_true.mp hdsd d (List.mem_cons_self d ds')
        rw [not_space_of_digit hdd] at hd
        exact Bool.noConfusion hd
    have hA2 : w.length ≤ k0 := by
      by_contra hlt
      push_neg at hlt
      obtain ⟨x, u', hu, hx⟩ := exists_cons_of_takeWhile_pos (le_trans hk1ge hk1le)
      have hdropw : t.drop k0 = w.drop k0 ++ (ds ++ '.' :: c :: r) := by
        rw [ht, List.drop_append_of_le_length (le_of_lt hlt)]
      obtain ⟨y, ys, hy⟩ := List.exists_cons_of_ne_nil
        (show w.drop k0 ≠ [] by
          intro hnil
          have := congrArg List.length hnil
          simp [List.length_drop] at this
          omega)
      have hxy : y = x := by
        rw [hdropw, hy, List.cons_append] at hu
        injection hu with h1 h2
      have hyw : y ∈ w := (List.drop_sublist k0 w).mem (hy ▸ List.mem_cons_self y ys)
      have hys : isSpaceCh y = true := List.all_eq_true.mp hw y hyw
      have hyd : isDigitCh y = true := by rw [hxy]; exact hx
      rw [not_space_of_digit hyd] at hys
      exact Bool.noConfusion hys
    have hk0 : k0 = w.length := le_antisymm hA1 hA2
    have hdrop0 : t.drop k0 = ds ++ '.' :: c :: r := by
      rw [ht, hk0, List.drop_left]
    rw [hdrop0] at hk1le hm1 hlit hm2
    -- step B: the digit segment is exactly `ds`
    have hB1 : k1 ≤ ds.length := by
      by_contra hgt
      push_neg at hgt
      have hall : ((ds ++ '.' :: c :: r).take k1).all isDigitCh = true :=
        all_take_of_le_takeWhile _ k1 hk1le
      have hsplit : (ds ++ '.' :: c :: r).take k1 =
          ds ++ ('.' :: c :: r).take (k1 - ds.length) := by
        rw [List.take_append_eq_append_take, List.take_of_length_le (le_of_lt hgt)]
      rw [hsplit, List.all_append, Bool.and_eq_true] at hall
      have h2 := hall.2
      cases hk : k1 - ds.length with
      | zero => omega
      | succ mm =>
        rw [hk, List.take_succ_cons, List.all_cons, Bool.and_eq_true] at h2
        have : isDigitCh '.' = true := h2.1
        exact absurd this (by decide)
    have hB2 : ds.length ≤ k1 := by
      by_contra hlt
      push_neg at hlt
      have hdropd : (ds ++ '.' :: c :: r).drop k1 = ds.drop k1 ++ '.' :: c :: r :=
        List.drop_append_of_le_length (le_of_lt hlt)
      obtain ⟨y, ys, hy⟩ := List.exists_cons_of_ne_nil
        (show ds.drop k1 ≠ [] by
          intro hnil
          have := congrArg List.length hnil
          simp [List.length_drop] at this
          omega)
      have hlit' : ((ds ++ '.' :: c :: r).drop k1).take 1 = ['.'] := by
        simpa using hlit
      rw [hdropd, hy, List.cons_append, List.take_succ_cons, List.take_zero] at hlit'
      have hy' : y = '.' := by
        injection hlit' with h1 h2
      have hyd : isDigitCh y = true :=
        List.all_eq_true.mp hdsd y ((List.drop_sublist k1 ds).mem (hy ▸ List.mem_cons_self y ys))
      rw [hy'] at hyd
      exact absurd hyd (by decide)
    have hk1 : k1 = ds.length := le_antisymm hB1 hB2
    have hdrop1 : (ds ++ '.' :: c :: r).drop k1 = '.' :: c :: r := by
      rw [hk1, List.drop_left]
    rw [hdrop1] at hm2
    -- step C: after the literal ".", the pattern demands whitespace but finds the digit `c`
    have hm2' : matchAtoms [Atom.plusG isSpaceCh] (c :: r) = some L2 := by
      simpa using hm2
    obtain ⟨k4, L4, -, hk4ge, hk4le, -⟩ := matchAtoms_plusG_inv hm2'
    obtain ⟨x, u', hu, hx⟩ := exists_cons_of_takeWhile_pos (le_trans hk4ge hk4le)
    have hcx : c = x := by
      injection hu with h1 h2
    have hx' : isDigitCh x = true := by rw [← hcx]; exact hc
    rw [not_space_of_digit hx'] at hx
    exact Bool.noConfusion hx

theorem not_table_of_shape (w ds r : List Char) (c : Char)
    (hw : w.all isSpaceCh = true) (hds : ds ≠ []) (hdsd : ds.all isDigitCh = true) :
    looks_like_table_heading (w ++ (ds ++ '.' :: c :: r)) = false := by
  obtain ⟨hd, tl, hcons, hhd⟩ : ∃ hd tl, w ++ (ds ++ '.' :: c :: r) = hd :: tl ∧
      (isSpaceCh hd = true ∨ isDigitCh hd = true) := by
    cases w with
    | nil =>
      cases ds with
      | nil => exact absurd rfl hds
      | cons d ds' =>
        exact ⟨d, ds' ++ '.' :: c :: r, rfl,
          Or.inr (List.all_eq_true.mp hdsd d (List.mem_cons_self d ds'))⟩
    | cons x w' =>
      exact ⟨x, w' ++ (ds ++ '.' :: c :: r), rfl,
        Or.inl (List.all_eq_true.mp hw x (List.mem_cons_self x w'))⟩
  rw [hcons]
  have hT : ('T' == hd) = false := by
    rw [beq_eq_false_iff_ne]
    rintro rfl
    rcases hhd with h | h
    · exact absurd h (by decide)
    · exact absurd h (by decide)
  have hR : ('R' == hd) = false := by
    rw [beq_eq_false_iff_ne]
    rintro rfl
    rcases hhd with h | h
    · exact absurd h (by decide)
    · exact absurd h (by decide)
  have e1 : chars "Table " = 'T' :: chars "able " := rfl
  have e2 : chars "Relevant regulatory references" =
      'R' :: chars "elevant regulatory references" := rfl
  simp only [looks_like_table_heading, TABLE_HEADING_STARTS, List.any_cons, List.any_nil,
    e1, e2, List.isPrefixOf, hT, hR, Bool.false_and, Bool.or_false, Bool.false_or]

/-- C10: a block of at-least-footnote but below-heading size whose text
begins with a numeric dotted label followed immediately by a digit
("1.2 Scope"-shaped) never fires the paragraph-start rule (the pattern
demands whitespace right after the period), never opens a record, and
never changes the heading context: it is appended as continuation text
when a paragraph is in flight and discarded otherwise. -/
theorem c10_numdot_label_is_continuation (printed : Int) (st : St) (b : Block)
    (h1 : FOOTNOTE_MAX_PT ≤ b.max_size) (h2 : b.max_size < HEADING_MIN_PT)
    (w ds r : List Char) (c : Char)
    (hshape : b.text = w ++ (ds ++ '.' :: c :: r))
    (hw : w.all isSpaceCh = true) (hds : ds ≠ []) (hdsd : ds.all isDigitCh = true)
    (hc : isDigitCh c = true) :
    V3.processBlock printed st b =
      (match st.cur_para with
       | some _ => { st with buf := st.buf ++ [b.text] }
       | none => st) := by
  have hT : ¬(TITLE_MIN_PT ≤ b.max_size ∧ b.text.length < 200 ∧
      lowerStr b.text ≠ chars "contents") := by
    rintro ⟨hx, -, -⟩
    exact absurd (lt_of_le_of_lt hx h2) (by decide)
  have hH : ¬ HEADING_MIN_PT ≤ b.max_size := not_le.mpr h2
  have hfoot : ¬(b.max_size < FOOTNOTE_MAX_PT ∨ looks_like_table_heading b.text = true) := by
    rintro (hlt | htab)
    · exact absurd hlt (not_lt.mpr h1)
    · rw [hshape, not_table_of_shape w ds r c hw hds hdsd] at htab
      exact Bool.noConfusion htab
  have hps : paraStartMatch b.text = none := by
    rw [hshape]
    simp only [paraStartMatch, matchAtoms_paraStart_none w ds r c hw hds hdsd hc,
      Option.map_none']
  simp only [V3.processBlock, if_neg hT, if_neg hH, if_neg hfoot, hps]

theorem c10_numdot_label_is_continuation_witness :
    V3.processBlock 1 initSt blkNumdot = initSt := by
  have h := c10_numdot_label_is_continuation 1 initSt blkNumdot (by decide) (by decide)
    [] (chars "1") (chars " Scope") '2' rfl (by decide) (by decide) (by decide) (by decide)
  simpa using h

/-! ### C4 — idempotence of the normalizer -/

theorem mem_dropWhile {c : Char} {p : Char → Bool} :
    ∀ {t : List Char}, c ∈ t.dropWhile p → c ∈ t
  | [], h => h
  | x :: t', h => by
    by_cases hx : p x
    · rw [List.dropWhile_cons, if_pos hx] at h
      exact List.mem_cons_of_mem x (mem_dropWhile h)
    · rw [List.dropWhile_cons, if_neg hx] at h
      exact h

theorem mem_stripWs {c : Char} {t : List Char} (h : c ∈ stripWs t) : c ∈ t := by
  simp only [stripWs, dropTrailingWs] at h
  exact mem_dropWhile (List.mem_reverse.mp (mem_dropWhile (List.mem_reverse.mp h)))

theorem mem_collapseWsAux {c : Char} :
    ∀ (fl : Bool) (t : List Char), c ∈ collapseWsAux fl t → c = ' ' ∨ c ∈ t
  | _, [], h => absurd h (List.not_mem_nil c)
  | fl, x :: rest, h => by
    by_cases hx : isSpaceCh x = true
    · cases fl with
      | true =>
        have e : collapseWsAux true (x :: rest) = collapseWsAux true rest := by
          simp [collapseWsAux, hx]
        rw [e] at h
        rcases mem_collapseWsAux true rest h with h1 | h1
        · exact Or.inl h1
        · exact Or.inr (List.mem_cons_of_mem x h1)
      | false =>
        have e : collapseWsAux false (x :: rest) = ' ' :: collapseWsAux true rest := by
          simp [collapseWsAux, hx]
        rw [e] at h
        rcases List.mem_cons.mp h with h1 | h1
        · exact Or.inl h1
        · rcases mem_collapseWsAux true rest h1 with h2 | h2
          · exact Or.inl h2
          · exact Or.inr (List.mem_cons_of_mem x h2)
    · have e : collapseWsAux fl (x :: rest) = x :: collapseWsAux false rest := by
        simp [collapseWsAux, hx]
      rw [e] at h
      rcases List.mem_cons.mp h with h1 | h1
      · exact Or.inr (h1 ▸ List.mem_cons_self x rest)
      · rcases mem_collapseWsAux false rest h1 with h2 | h2
        · exact Or.inl h2
        · exact Or.inr (List.mem_cons_of_mem x h2)

theorem mem_subHeaderAux {c : Char} :
    ∀ (fuel : Nat) (t : List Char), c ∈ subHeaderAux fuel t → c = ' ' ∨ c ∈ t
  | 0, _, h => Or.inr h
  | fuel + 1, t, h => by
    cases hm : matchAtoms HEADER_STRIP_RE t with
    | some L =>
      simp only [subHeaderAux, hm] at h
      rcases List.mem_cons.mp h with h1 | h1
      · exact Or.inl h1
      · rcases mem_subHeaderAux fuel (t.drop L.sum) h1 with h2 | h2
        · exact Or.inl h2
        · exact Or.inr ((List.drop_sublist _ _).mem h2)
    | none =>
      cases t with
      | nil => simp only [subHeaderAux, hm] at h; exact absurd h (List.not_mem_nil c)
      | cons x t' =>
        simp only [subHeaderAux, hm] at h
        rcases List.mem_cons.mp h with h1 | h1
        · exact Or.inr (h1 ▸ List.mem_cons_self x t')
        · rcases mem_subHeaderAux fuel t' h1 with h2 | h2
          · exact Or.inl h2
          · exact Or.inr (List.mem_cons_of_mem x h2)

theorem mem_removeHyphenNl {c : Char} :
    ∀ (t : List Char), c ∈ removeHyphenNl t → c ∈ t
  | [], h => h
  | [x], h => h
  | x :: d :: rest, h => by
    rw [removeHyphenNl] at h
    by_cases hxd : x = '-' ∧ d = '\n'
    · rw [if_pos hxd] at h
      exact List.mem_cons_of_mem x (List.mem_cons_of_mem d (mem_removeHyphenNl rest h))
    · rw [if_neg hxd] at h
      rcases List.mem_cons.mp h with h1 | h1
      · exact h1 ▸ List.mem_cons_self x _
      · exact List.mem_cons_of_mem x (mem_removeHyphenNl (d :: rest) h1)

theorem mem_replaceNl {c : Char} {t : List Char} (h : c ∈ replaceNl t) :
    c = ' ' ∨ c ∈ t := by
  obtain ⟨x, hx, he⟩ := List.mem_map.mp h
  by_cases hxn : x = '\n'
  · rw [if_pos hxn] at he
    exact Or.inl he.symm
  · rw [if_neg hxn] at he
    exact Or.inr (he ▸ hx)

theorem replaceNl_no_nl (t : List Char) : '\n' ∉ replaceNl t := by
  intro h
  obtain ⟨x, -, he⟩ := List.mem_map.mp h
  by_cases hxn : x = '\n'
  · rw [if_pos hxn] at he
    exact absurd he (by decide)
  · rw [if_neg hxn] at he
    exact hxn he

theorem no_nl_normalize (s : List Char) : '\n' ∉ normalize_text s := by
  intro h
  have h1 : '\n' ∈ collapseWsAux false
      (headerStrip (replaceNl (removeHyphenNl (removeSoftHyphen s)))) := mem_stripWs h
  rcases mem_collapseWsAux false _ h1 with h2 | h2
  · exact absurd h2 (by decide)
  · rcases mem_subHeaderAux _ _ h2 with h3 | h3
    · exact absurd h3 (by decide)
    · exact replaceNl_no_nl _ h3

theorem no_shy_normalize (s : List Char) : Char.ofNat 0xAD ∉ normalize_text s := by
  intro h
  have h1 : Char.ofNat 0xAD ∈ collapseWsAux false
      (headerStrip (replaceNl (removeHyphenNl (removeSoftHyphen s)))) := mem_stripWs h
  rcases mem_collapseWsAux false _ h1 with h2 | h2
  · exact absurd h2 (by decide)
  · rcases mem_subHeaderAux _ _ h2 with h3 | h3
    · exact absurd h3 (by decide)
    · rcases mem_replaceNl h3 with h4 | h4
      · exact absurd h4 (by decide)
      · have h5 := mem_removeHyphenNl _ h4
        have h6 := List.mem_filter.mp h5
        exact absurd h6.2 (by decide)

theorem removeSoftHyphen_eq_self {t : List Char} (h : Char.ofNat 0xAD ∉ t) :
    removeSoftHyphen t = t :=
  List.filter_eq_self.mpr (fun a ha => by
    rw [bne_iff_ne]
    rintro rfl
    exact h ha)

theorem removeHyphenNl_eq_self : ∀ (t : List Char), '\n' ∉ t → removeHyphenNl t = t
  | [], _ => rfl
  | [_], _ => rfl
  | x :: d :: rest, h => by
    rw [removeHyphenNl]
    have hd : ¬(x = '-' ∧ d = '\n') := by
      rintro ⟨-, rfl⟩
      exact h (List.mem_cons_of_mem _ (List.mem_cons_self _ _))
    rw [if_neg hd,
      removeHyphenNl_eq_self (d :: rest) (fun hm => h (List.mem_cons_of_mem x hm))]

theorem replaceNl_eq_self : ∀ (t : List Char), '\n' ∉ t → replaceNl t = t
  | [], _ => rfl
  | x :: rest, h => by
    have hx : ¬ x = '\n' := fun e => h (e ▸ List.mem_cons_self x rest)
    simp only [replaceNl, List.map_cons, if_neg hx]
    have e : List.map (fun c => if c = '\n' then ' ' else c) rest = replaceNl rest := rfl
    rw [e, replaceNl_eq_self rest (fun hm => h (List.mem_cons_of_mem x hm))]

theorem spacesOk_collapseWsAux :
    ∀ (fl : Bool) (t : List Char), spacesOk (collapseWsAux fl t)
  | _, [] => fun c hc _ => absurd hc (List.not_mem_nil c)
  | fl, x :: rest => by
    intro c hc hws
    by_cases hx : isSpaceCh x = true
    · cases fl with
      | true =>
        have e : collapseWsAux true (x :: rest) = collapseWsAux true rest := by
          simp [collapseWsAux, hx]
        rw [e] at hc
        exact spacesOk_collapseWsAux true rest c hc hws
      | false =>
        have e : collapseWsAux false (x :: rest) = ' ' :: collapseWsAux true rest := by
          simp [collapseWsAux, hx]
        rw [e] at hc
        rcases List.mem_cons.mp hc with h1 | h1
        · exact h1
        · exact spacesOk_collapseWsAux true rest c h1 hws
    · have e : collapseWsAux fl (x :: rest) = x :: collapseWsAux false rest := by
        simp [collapseWsAux, hx]
      rw [e] at hc
      rcases List.mem_cons.mp hc with h1 | h1
      · rw [h1] at hws
        exact absurd hws hx
      · exact spacesOk_collapseWsAux false rest c h1 hws

theorem head_collapseWsAux_true :
    ∀ (rest : List Char) (c : Char),
      (collapseWsAux true rest).head? = some c → isSpaceCh c = false
  | [], c, h => Option.noConfusion h
  | x :: rest, c, h => by
    by_cases hx : isSpaceCh x = true
    · have e : collapseWsAux true (x :: rest) = collapseWsAux true rest := by
        simp [collapseWsAux, hx]
      rw [e] at h
      exact head_collapseWsAux_true rest c h
    · have e : collapseWsAux true (x :: rest) = x :: collapseWsAux false rest := by
        simp [collapseWsAux, hx]
      rw [e, List.head?_cons] at h
      injection h with h1
      rw [← h1]
      cases hxx : isSpaceCh x
      · rfl
      · exact absurd hxx hx

theorem noWsPair_collapseWsAux :
    ∀ (t : List Char) (fl : Bool), noWsPair (collapseWsAux fl t)
  | [], _ => List.chain'_nil
  | x :: rest, fl => by
    by_cases hx : isSpaceCh x = true
    · cases fl with
      | true =>
        have e : collapseWsAux true (x :: rest) = collapseWsAux true rest := by
          simp [collapseWsAux, hx]
        rw [e]
        exact noWsPair_collapseWsAux rest true
      | false =>
        have e : collapseWsAux false (x :: rest) = ' ' :: collapseWsAux true rest := by
          simp [collapseWsAux, hx]
        rw [e]
        refine List.chain'_cons'.mpr ⟨?_, noWsPair_collapseWsAux rest true⟩
        intro y hy
        intro hpair
        rw [head_collapseWsAux_true rest y hy] at hpair
        exact Bool.noConfusion hpair.2
    · have e : collapseWsAux fl (x :: rest) = x :: collapseWsAux false rest := by
        simp [collapseWsAux, hx]
      rw [e]
      refine List.chain'_cons'.mpr ⟨?_, noWsPair_collapseWsAux rest false⟩
      intro y _ hpair
      exact hx hpair.1

theorem noWsPair_dropWhile (p : Char → Bool) :
    ∀ (t : List Char), noWsPair t → noWsPair (t.dropWhile p)
  | [], h => h
  | x :: rest, h => by
    rw [List.dropWhile_cons]
    by_cases hx : p x
    · rw [if_pos hx]
      exact noWsPair_dropWhile p rest (List.Chain'.tail h)
    · rw [if_neg hx]
      exact h

theorem noWsPair_reverse {t : List Char} (h : noWsPair t) : noWsPair t.reverse := by
  have : List.Chain' (flip fun a b => ¬(isSpaceCh a = true ∧ isSpaceCh b = true)) t :=
    List.Chain'.imp (fun a b hab => fun hp => hab ⟨hp.2, hp.1⟩) h
  exact List.chain'_reverse.mpr this

theorem noWsPair_stripWs {u : List Char} (h : noWsPair u) : noWsPair (stripWs u) :=
  noWsPair_reverse (noWsPair_dropWhile _ _ (noWsPair_reverse (noWsPair_dropWhile _ _ h)))

theorem head?_dropWhile_not (p : Char → Bool) :
    ∀ (t : List Char) {c : Char}, (t.dropWhile p).head? = some c → p c = false
  | [], _, h => Option.noConfusion h
  | x :: rest, c, h => by
    rw [List.dropWhile_cons] at h
    by_cases hx : p x
    · rw [if_pos hx] at h
      exact head?_dropWhile_not p rest h
    · rw [if_neg hx] at h
      rw [List.head?_cons] at h
      injection h with h1
      rw [← h1]
      cases hxx : p x
      · rfl
      · exact absurd hxx hx

theorem dropTrailingWs_is_prefix (u : List Char) : ∃ w, u = dropTrailingWs u ++ w := by
  refine ⟨(u.reverse.takeWhile isSpaceCh).reverse, ?_⟩
  have hw : u.reverse = u.reverse.takeWhile isSpaceCh ++ u.reverse.dropWhile isSpaceCh :=
    (List.takeWhile_append_dropWhile _ _).symm
  have h2 := congrArg List.reverse hw
  rw [List.reverse_reverse, List.reverse_append] at h2
  exact h2

theorem head?_dropTrailingWs {u : List Char} {c : Char}
    (h : (dropTrailingWs u).head? = some c) : u.head? = some c := by
  obtain ⟨w, hw⟩ := dropTrailingWs_is_prefix u
  cases hv : dropTrailingWs u with
  | nil => rw [hv] at h; exact Option.noConfusion h
  | cons a v' =>
    rw [hv] at h
    rw [hw, hv, List.cons_append, List.head?_cons]
    exact h

theorem lastNotWs_dropTrailingWs (u : List Char) : lastNotWs (dropTrailingWs u) := by
  intro c hc
  rw [dropTrailingWs, List.getLast?_reverse] at hc
  exact head?_dropWhile_not isSpaceCh _ hc

theorem headNotWs_stripWs (t : List Char) : headNotWs (stripWs t) := by
  intro c hc
  have h1 : (t.dropWhile isSpaceCh).head? = some c := head?_dropTrailingWs hc
  exact head?_dropWhile_not isSpaceCh t h1

theorem lastNotWs_stripWs (t : List Char) : lastNotWs (stripWs t) :=
  lastNotWs_dropTrailingWs _

theorem collapseWsAux_eq_self :
    ∀ (t : List Char), spacesOk t → noWsPair t → lastNotWs t →
      (collapseWsAux false t = t ∧ (headNotWs t → collapseWsAux true t = t))
  | [], _, _, _ => ⟨rfl, fun _ => rfl⟩
  | x :: rest, hsp, hnw, hlast => by
    have hsp' : spacesOk rest := fun c hc => hsp c (List.mem_cons_of_mem x hc)
    have hnw' : noWsPair rest := List.Chain'.tail hnw
    have hlast' : lastNotWs rest := by
      intro c hc
      apply hlast
      cases rest with
      | nil => exact absurd hc (by simp)
      | cons d rest' => rw [List.getLast?_cons_cons]; exact hc
    by_cases hx : isSpaceCh x = true
    · have hxsp : x = ' ' := hsp x (List.mem_cons_self x rest) hx
      cases rest with
      | nil =>
        exfalso
        have hl := hlast x rfl
        rw [hl] at hx
        exact Bool.noConfusion hx
      | cons d rest' =>
        have hR := (List.chain'_cons.mp hnw).1
        have hd : isSpaceCh d = false := by
          cases hdd : isSpaceCh d
          · rfl
          · exact absurd ⟨hx, hdd⟩ hR
        have hhead : headNotWs (d :: rest') := by
          intro c hc
          rw [List.head?_cons] at hc
          injection hc with h1
          rw [← h1]
          exact hd
        have ih := collapseWsAux_eq_self (d :: rest') hsp' hnw' hlast'
        have e : collapseWsAux false (x :: d :: rest') =
            ' ' :: collapseWsAux true (d :: rest') := by
          simp [collapseWsAux, hx]
        constructor
        · rw [e, ih.2 hhead, hxsp]
        · intro hh
          have := hh x rfl
          rw [this] at hx
          exact Bool.noConfusion hx
    · have ih := collapseWsAux_eq_self rest hsp' hnw' hlast'
      have e : ∀ fl, collapseWsAux fl (x :: rest) = x :: collapseWsAux false rest := by
        intro fl
        simp [collapseWsAux, hx]
      exact ⟨by rw [e, ih.1], fun _ => by rw [e, ih.1]⟩

theorem dropWhile_eq_self_of_headNotWs {t : List Char} (h : headNotWs t) :
    t.dropWhile isSpaceCh = t := by
  cases t with
  | nil => rfl
  | cons x rest =>
    rw [List.dropWhile_cons, if_neg]
    intro hx
    have := h x rfl
    rw [this] at hx
    exact Bool.noConfusion hx

theorem dropTrailingWs_eq_self_of_lastNotWs {t : List Char} (h : lastNotWs t) :
    dropTrailingWs t = t := by
  rw [dropTrailingWs]
  have hh : headNotWs t.reverse := by
    intro c hc
    rw [List.head?_reverse] at hc
    exact h c hc
  rw [dropWhile_eq_self_of_headNotWs hh, List.reverse_reverse]

theorem stripWs_eq_self {t : List Char} (h1 : headNotWs t) (h2 : lastNotWs t) :
    stripWs t = t := by
  rw [stripWs, dropWhile_eq_self_of_headNotWs h1, dropTrailingWs_eq_self_of_lastNotWs h2]

theorem spacesOk_normalize (s : List Char) : spacesOk (normalize_text s) :=
  fun c hc hws => spacesOk_collapseWsAux false _ c (mem_stripWs hc) hws

theorem noWsPair_normalize (s : List Char) : noWsPair (normalize_text s) :=
  noWsPair_stripWs (noWsPair_collapseWsAux _ false)

theorem headNotWs_normalize (s : List Char) : headNotWs (normalize_text s) :=
  headNotWs_stripWs _

theorem lastNotWs_normalize (s : List Char) : lastNotWs (normalize_text s) :=
  lastNotWs_stripWs _

/-- C4 counterexample: `normalize_text` is NOT idempotent.  On
"ECB  guide to internal models – x 1" (two spaces after "ECB") the first
pass finds no running-header match, but its whitespace collapse creates
one, which the second pass strips to nothing. -/
theorem c4_counterexample :
    normalize_text (normalize_text (chars "ECB  guide to internal models – x 1")) ≠
      normalize_text (chars "ECB  guide to internal models – x 1") := by decide

/-- C4 amended: `normalize_text` is idempotent on every string `s` whose
normalized form is left unchanged by the running-header strip — in
particular whenever `normalize_text s` contains no header match; the
counterexample shows the unconditional claim fails when whitespace
collapsing manufactures a fresh header match.  Empty input still yields
empty output, and the function is total. -/
theorem c4_conditional_idempotent :
    (∀ s : List Char, headerStrip (normalize_text s) = normalize_text s →
        normalize_text (normalize_text s) = normalize_text s) ∧
    normalize_text [] = [] := by
  refine ⟨?_, rfl⟩
  intro s hhs
  have hnl : '\n' ∉ normalize_text s := no_nl_normalize s
  have hshy : Char.ofNat 0xAD ∉ normalize_text s := no_shy_normalize s
  have hcoll := collapseWsAux_eq_self (normalize_text s) (spacesOk_normalize s)
    (noWsPair_normalize s) (lastNotWs_normalize s)
  conv_lhs => rw [normalize_text]
  rw [removeSoftHyphen_eq_self hshy, removeHyphenNl_eq_self _ hnl,
    replaceNl_eq_self _ hnl, hhs]
  have e : collapseWs (normalize_text s) = normalize_text s := hcoll.1
  rw [e, stripWs_eq_self (headNotWs_normalize s) (lastNotWs_normalize s)]

theorem c4_conditional_idempotent_witness :
    normalize_text (normalize_text (chars "hello  world")) =
      normalize_text (chars "hello  world") :=
  c4_conditional_idempotent.1 (chars "hello  world") (by decide)
